import Mathlib

/-!
Verification of the SyncShow slide converter (`converter.py`) against its
design specification.  The Python source is shallowly embedded: pure
computations become Lean functions over `ℚ`/`ℤ`/`Nat`, images become a
dimensions-plus-pixel-function record, the filesystem that the thumbnail
generator walks becomes an association list of filenames and image files,
and the fallible LibreOffice pipeline becomes an `Except`-valued function
over an explicit environment describing the outside world (binary lookup,
subprocess outcome, temp-directory contents).
-/

namespace SyncShow

/-! ## Geometry: the canvas fitter (`convert_pdf_to_images`, lines 168-191)

Python floats are modelled as exact rationals; Python `int()` (truncation
toward zero) is `pytrunc`; Python `//` on integers (floor division) is
`Int.fdiv`. -/

/-- Python `int(q)`: truncation toward zero. -/
def pytrunc (q : ℚ) : ℤ := if 0 ≤ q then ⌊q⌋ else ⌈q⌉

/-- `zoom_x = width / page_rect.width` (line 171). -/
def zoom_x (width sourceW : ℚ) : ℚ := width / sourceW

/-- `zoom_y = height / page_rect.height` (line 172). -/
def zoom_y (height sourceH : ℚ) : ℚ := height / sourceH

/-- `zoom = min(zoom_x, zoom_y)` (line 173): uniform scale-to-fit factor. -/
def zoom (width height sourceW sourceH : ℚ) : ℚ :=
  min (zoom_x width sourceW) (zoom_y height sourceH)

/-- In Python, `width / page_rect.width` raises `ZeroDivisionError` when the
page rectangle has zero width (floats included); same for the height.  The
division step is therefore partial: `Except.error` is the raised exception.
There is no guard in the source before these two divisions. -/
inductive PyErr where
  | zeroDivisionError
deriving DecidableEq

/-- The zoom computation as executed by lines 171-173, with Python's
division-by-zero exception made explicit. -/
def zoomCalc (width height sourceW sourceH : ℚ) : Except PyErr ℚ :=
  if sourceW = 0 then .error .zeroDivisionError
  else if sourceH = 0 then .error .zeroDivisionError
  else .ok (zoom width height sourceW sourceH)

/-- `x_offset = (width - img.width) // 2` (line 189); Python `//` floors. -/
def x_offset (width imgWidth : ℤ) : ℤ := (width - imgWidth).fdiv 2

/-- `y_offset = (height - img.height) // 2` (line 190). -/
def y_offset (height imgHeight : ℤ) : ℤ := (height - imgHeight).fdiv 2

/-! ## Images: PIL `Image` objects as a pixel grid -/

/-- An RGB colour triple. -/
abbrev RGB := Nat × Nat × Nat

/-- The canvas fill used by the high-fidelity path, `(0, 0, 0)` (line 187). -/
def black : RGB := (0, 0, 0)

/-- The fallback placeholder background, `(0, 0, 32)` (line 228, commented
"Dark blue background" in the source). -/
def darkBlue : RGB := (0, 0, 32)

/-- A PIL image: dimensions plus colour at each (x, y). -/
structure Img where
  width : Nat
  height : Nat
  pix : Nat → Nat → RGB

/-- `Image.new("RGB", (w, h), color)`: a w×h canvas of one solid colour. -/
def imageNew (w h : Nat) (color : RGB) : Img :=
  { width := w, height := h, pix := fun _ _ => color }

/-- `base.paste(src, (ox, oy))`: pixels inside the pasted rectangle come from
`src`, the rest keep the base canvas; the base's dimensions are unchanged. -/
def paste (base src : Img) (ox oy : ℤ) : Img :=
  { width := base.width, height := base.height,
    pix := fun x y =>
      if ox ≤ (x : ℤ) ∧ (x : ℤ) < ox + src.width ∧
         oy ≤ (y : ℤ) ∧ (y : ℤ) < oy + src.height then
        src.pix ((x : ℤ) - ox).toNat ((y : ℤ) - oy).toNat
      else base.pix x y }

/-- Lines 185-192 of `convert_pdf_to_images`: if the rasterized buffer `img`
does not already have the target dimensions, allocate a black
(width × height) canvas and paste the buffer centred; otherwise keep `img`
unchanged. -/
def composeFinal (width height : Nat) (img : Img) : Img :=
  if img.width ≠ width ∨ img.height ≠ height then
    let final_img := imageNew width height black
    paste final_img img (x_offset width img.width) (y_offset height img.height)
  else img

/-- Line 228 of `convert_with_pptx_direct`: the placeholder image produced by
the fallback path, `Image.new("RGB", (width, height), (0, 0, 32))`. -/
def placeholderImage (width height : Nat) : Img :=
  imageNew width height darkBlue

/-! ## Conversion method selection (`main`, lines 342-348; `find_libreoffice`,
lines 51-92) -/

/-- The `--method` choices (line 328). -/
inductive Method where
  | libreoffice
  | direct
  | auto
deriving DecidableEq

/-- `platform.system()` outcomes distinguished by `find_libreoffice`. -/
inductive OSKind where
  | windows
  | darwin
  | linux
deriving DecidableEq

/-- What `find_libreoffice` observes of the host system: names resolvable by
`shutil.which`, paths for which `os.path.exists` is true, the platform, and
the home directory that `os.path.expanduser` substitutes for `~`. -/
structure SysEnv where
  whichFound : List String
  existingPaths : List String
  system : OSKind
  home : String

/-- The hard-coded candidate path list of `find_libreoffice` (lines 62-86),
per platform, with `os.path.expanduser` applied. -/
def possiblePaths (system : OSKind) (home : String) : List String :=
  match system with
  | .windows =>
      ["C:\\Program Files\\LibreOffice\\program\\soffice.exe",
       "C:\\Program Files (x86)\\LibreOffice\\program\\soffice.exe",
       "C:\\Program Files\\LibreOffice\\program\\soffice.com",
       home ++ "\\AppData\\Local\\Programs\\LibreOffice\\program\\soffice.exe"]
  | .darwin =>
      ["/Applications/LibreOffice.app/Contents/MacOS/soffice",
       home ++ "/Applications/LibreOffice.app/Contents/MacOS/soffice"]
  | .linux =>
      ["/usr/bin/soffice",
       "/usr/bin/libreoffice",
       "/usr/local/bin/soffice",
       "/usr/local/bin/libreoffice",
       "/opt/libreoffice/program/soffice",
       "/snap/bin/libreoffice",
       home ++ "/.local/bin/soffice"]

/-- `find_libreoffice()` (lines 51-92): `shutil.which` for `soffice` then
`soffice.exe`, then the first existing candidate path, else `None`. -/
def find_libreoffice (env : SysEnv) : Option String :=
  if env.whichFound.contains "soffice" then some "soffice"
  else if env.whichFound.contains "soffice.exe" then some "soffice.exe"
  else (possiblePaths env.system env.home).find? (fun p => env.existingPaths.contains p)

/-- Lines 342-348 of `main`: resolve `--method auto` by capability detection;
an explicit method is kept as-is.  The returned Bool records whether the
"LibreOffice not available" warning was printed (line 348). -/
def selectMethod (method : Method) (env : SysEnv) (pymupdfAvailable : Bool) :
    Method × Bool :=
  match method with
  | .auto =>
      if (find_libreoffice env).isSome && pymupdfAvailable then
        (.libreoffice, false)
      else
        (.direct, true)
  | m => (m, false)

/-! ## The high-fidelity path (`convert_with_libreoffice`, lines 95-153) -/

/-- Outcome of `subprocess.run(cmd, ..., timeout=300)`: either completion
with a return code and captured output, or `subprocess.TimeoutExpired`. -/
inductive SubprocessOutcome where
  | completed (returncode : ℤ) (stdout stderr : String)
  | timedOut
deriving DecidableEq

/-- What one invocation of `convert_with_libreoffice` observes of the outside
world: the `find_libreoffice` result, the subprocess outcome, whether the
expectedly-named PDF exists in the temp directory, the `*.pdf` glob there,
and the page count that `convert_pdf_to_images` returns on the found PDF. -/
structure LOEnv where
  soffice : Option String
  outcome : SubprocessOutcome
  expectedPdfExists : Bool
  globPdfs : List String
  renderedPages : Nat

/-- The distinct `RuntimeError`s raised by `convert_with_libreoffice`:
binary not found (line 102), non-zero exit (line 129), timeout (line 131),
and no PDF produced after the two-step lookup (line 149). -/
inductive ConvError where
  | libreofficeNotFound
  | conversionFailed (msg : String)
  | conversionTimedOut
  | pdfNotGenerated
deriving DecidableEq

/-- Events on the scoped temporary directory: `tempfile.TemporaryDirectory()`
acquires it on entering the `with` block and releases it on exit, whether the
block ends normally or by an exception propagating out. -/
inductive TempEvent where
  | acquire
  | release
deriving DecidableEq

/-- The body of the `with tempfile.TemporaryDirectory()` block
(lines 106-153): subprocess run, error checks, two-step PDF lookup, then
rendering.  Pure result of the block, exceptions as `Except.error`. -/
def libreofficeBody (env : LOEnv) : Except ConvError Nat :=
  match env.outcome with
  | .timedOut => .error .conversionTimedOut
  | .completed returncode out err =>
      if returncode ≠ 0 then
        -- `error_msg = result.stderr or result.stdout or "Unknown error ..."`
        .error (.conversionFailed
          (if err ≠ "" then err
           else if out ≠ "" then out
           else "Unknown error (exit code: " ++ toString returncode ++ ")"))
      else if env.expectedPdfExists then
        .ok env.renderedPages
      else
        match env.globPdfs with
        | _ :: _ => .ok env.renderedPages
        | [] => .error .pdfNotGenerated

/-- `convert_with_libreoffice` (lines 95-153): fail before any temp-dir
acquisition when the binary is missing; otherwise run the body inside the
`with` block, whose scoped acquisition emits `acquire` on entry and
`release` on exit in every case (normal return or exception). -/
def convert_with_libreoffice (env : LOEnv) :
    Except ConvError Nat × List TempEvent :=
  match env.soffice with
  | none => (.error .libreofficeNotFound, [])
  | some _ => (libreofficeBody env, [.acquire, .release])

/-- Lines 381-385 of `main`: any exception from the conversion is caught,
reported, and turned into `sys.exit(1)`; a normal return reaches the end of
`main` (exit status 0). -/
def exitCode (r : Except ConvError Nat) : Nat :=
  match r with
  | .error _ => 1
  | .ok _ => 0

/-! ## Progress reporting (`convert_pdf_to_images` lines 199-203, `main`
line 378)

Line 202 evaluates `(page_num + 1) / total_pages * 100` in IEEE-754 double
arithmetic, not exactly: each of the two operations rounds its exact
rational result to the nearest representable double (ties to even).  `fl`
models that rounding on exact rationals — 53 significant bits, unbounded
exponent range (the values here are far from overflow and subnormals) — so
`pageProgress` reproduces the float tick, including cases like
`int((29/100)*100) = 28`. -/

/-- Round to the nearest integer, ties to even. -/
def rnde (q : ℚ) : ℤ :=
  if q - ⌊q⌋ < 1/2 then ⌊q⌋
  else if 1/2 < q - ⌊q⌋ then ⌊q⌋ + 1
  else if 2 ∣ ⌊q⌋ then ⌊q⌋ else ⌊q⌋ + 1

/-- Round a positive rational to the nearest double: scale to a 53-bit
mantissa using the binary logarithm, round to an integer mantissa (ties to
even), and scale back. -/
def flPos (q : ℚ) : ℚ :=
  ((rnde (q * (2 : ℚ) ^ (52 - Int.log 2 q)) : ℤ) : ℚ) *
    (2 : ℚ) ^ (Int.log 2 q - 52)

/-- Round any rational to the nearest double (ties to even); zero and sign
are exact. -/
def fl (q : ℚ) : ℚ :=
  if q = 0 then 0
  else if q < 0 then -flPos (-q)
  else flPos q

/-- `progress = int((page_num + 1) / total_pages * 100)` (line 202) in
double arithmetic: the division rounds, the multiplication by the exact
constant 100 rounds again, and `int()` truncates.  The tick after 1-based
page `i` of `total`. -/
def pageProgress (total i : Nat) : ℤ :=
  pytrunc (fl (fl ((i : ℚ) / (total : ℚ)) * 100))

/-- The sequence of `PROGRESS:` values printed by the per-page loop, in
order: one tick after each page. -/
def progressTicks (total : Nat) : List ℤ :=
  (List.range total).map (fun k => pageProgress total (k + 1))

/-- All `PROGRESS:` values of a successful run: the per-page ticks, then the
unconditional `print("PROGRESS:100")` of `main` (line 378). -/
def runProgress (total : Nat) : List ℤ :=
  progressTicks total ++ [100]

/-- Observable steps of `main`'s successful tail (lines 366-379), in program
order: the per-page progress ticks from conversion, then thumbnail
generation, text extraction and the metadata write, then `PROGRESS:100`. -/
inductive MainStep where
  | progressLine (p : ℤ)
  | thumbnailsGenerated
  | textExtracted
  | metadataSaved
deriving DecidableEq

/-- The ordered step trace of a successful run with `total` pages. -/
def mainSteps (total : Nat) : List MainStep :=
  (progressTicks total).map .progressLine ++
    [.thumbnailsGenerated, .textExtracted, .metadataSaved, .progressLine 100]

/-! ## Thumbnails (`generate_thumbnails`, lines 241-261)

Filenames are lists of characters; Python's `startswith`/`endswith`/`in`/
`replace`/`sorted` are given direct executable counterparts. -/

/-- A filename, as the list of its characters. -/
abbrev FileName := List Char

/-- `"slide_"`. -/
def slideStartMark : FileName := ['s', 'l', 'i', 'd', 'e', '_']

/-- `".jpg"`. -/
def jpgMark : FileName := ['.', 'j', 'p', 'g']

/-- `"_thumb"`. -/
def thumbMark : FileName := ['_', 't', 'h', 'u', 'm', 'b']

/-- `"_thumb.jpg"`. -/
def thumbJpgMark : FileName := ['_', 't', 'h', 'u', 'm', 'b', '.', 'j', 'p', 'g']

/-- Python `sub in s`: `sub` occurs as a contiguous substring of `s`. -/
def containsSub (sub : FileName) : FileName → Bool
  | [] => sub.isEmpty
  | c :: t => sub.isPrefixOf (c :: t) || containsSub sub t

/-- Python `s.replace(old, new)`: replace every non-overlapping occurrence of
`old`, scanning left to right.  (The source only calls this with
`old = ".jpg"`; the empty-pattern case never arises and is mapped to the
identity.) -/
def replaceAll (old new : FileName) (s : FileName) : FileName :=
  if hempty : old.isEmpty ∨ s.isEmpty then s
  else if hpre : old.isPrefixOf s then
    new ++ replaceAll old new (s.drop old.length)
  else
    s.headI :: replaceAll old new s.tail
termination_by s.length
decreasing_by
  · have hp : old <+: s := (List.isPrefixOf_iff_prefix).1 hpre
    have hlen : old.length ≤ s.length := hp.length_le
    have hpos : 0 < old.length := by
      cases old with
      | nil => simp at hempty
      | cons a l => simp
    have : s.length - old.length < s.length :=
      Nat.sub_lt (Nat.lt_of_lt_of_le hpos hlen) hpos
    simpa using this
  · have hpos : 0 < s.length := by
      cases s with
      | nil => simp at hempty
      | cons a l => simp
    have : s.tail.length = s.length - 1 := List.length_tail s
    omega

/-- Line 246's selection predicate: `f.startswith("slide_") and
f.endswith(".jpg") and "_thumb" not in f`. -/
def isFullSlide (f : FileName) : Bool :=
  slideStartMark.isPrefixOf f && jpgMark.isSuffixOf f && !containsSub thumbMark f

/-- Python string `<=` on filenames (lexicographic by character). -/
def nameLe : FileName → FileName → Bool
  | [], _ => true
  | _ :: _, [] => false
  | a :: as, b :: bs =>
      if a < b then true
      else if a = b then nameLe as bs
      else false

/-- Insert into a `nameLe`-sorted list. -/
def insertName (x : FileName) : List FileName → List FileName
  | [] => [x]
  | y :: ys => if nameLe x y then x :: y :: ys else y :: insertName x ys

/-- Python `sorted` on filenames (insertion sort; the order it realises). -/
def sortNames (l : List FileName) : List FileName :=
  l.foldr insertName []

/-- Line 250: `thumb_filename = slide_file.replace(".jpg", "_thumb.jpg")`. -/
def thumb_filename (f : FileName) : FileName :=
  replaceAll jpgMark thumbJpgMark f

/-- A stored image file: its pixel dimensions and an abstract pixel payload
standing for the JPEG content. -/
structure ImgFile where
  width : Nat
  height : Nat
  payload : Nat
deriving DecidableEq

/-- How a thumbnail is saved (lines 253-261): the computed box, the JPEG
quality and the resampling filter passed to `Image.Resampling`. -/
inductive Resampling where
  | lanczos
  | bicubic
  | nearest
deriving DecidableEq

/-- The parameters of one `thumb.save`: `aspect = img.width / img.height`,
`thumb_height = int(thumb_width / aspect)` (lines 255-256), then
`thumbnail((thumb_width, thumb_height), Image.Resampling.LANCZOS)` and
`save(..., "JPEG", quality=85)` (lines 260-261). -/
structure ThumbSave where
  boxWidth : Nat
  boxHeight : ℤ
  filterUsed : Resampling
  quality : Nat
deriving DecidableEq

/-- Lines 253-261 for one slide image of dimensions
(`imgWidth`, `imgHeight`): the save parameters actually used. -/
def thumbSaveParams (thumb_width imgWidth imgHeight : Nat) : ThumbSave :=
  let aspect : ℚ := (imgWidth : ℚ) / (imgHeight : ℚ)
  let thumb_height : ℤ := pytrunc ((thumb_width : ℚ) / aspect)
  { boxWidth := thumb_width, boxHeight := thumb_height,
    filterUsed := .lanczos, quality := 85 }

/-- The spec's stated formula for the thumbnail target height:
`round(targetWidth / (imageWidth / imageHeight))`. -/
def specThumbHeight (targetWidth imageWidth imageHeight : Nat) : ℤ :=
  round ((targetWidth : ℚ) / ((imageWidth : ℚ) / (imageHeight : ℚ)))

/-- The thumbnail file written for one source image: dimensions from the
computed box, payload a deterministic function of the source pixels. -/
def thumbImage (thumb_width : Nat) (img : ImgFile) : ImgFile :=
  { width := thumb_width,
    height := (thumbSaveParams thumb_width img.width img.height).boxHeight.toNat,
    payload := img.payload }

/-! ### The output directory as an association list -/

/-- The output directory: filenames paired with file contents, in creation
order (a fresh write appends, an overwrite keeps the entry in place). -/
abbrev FS := List (FileName × ImgFile)

/-- `os.listdir(output_dir)`. -/
def listdir (d : FS) : List FileName := d.map Prod.fst

/-- Reading a file (`Image.open`): the first entry with that name. -/
def fsRead (d : FS) (n : FileName) : Option ImgFile :=
  (d.find? (fun p => p.1 = n)).map Prod.snd

/-- Writing a file (`img.save`): overwrite in place when the name exists,
append otherwise. -/
def fsWrite (d : FS) (n : FileName) (v : ImgFile) : FS :=
  if n ∈ listdir d then
    d.map (fun p => if p.1 = n then (n, v) else p)
  else d ++ [(n, v)]

/-- Line 245-246: the selected input files, sorted. -/
def slideSelection (d : FS) : List FileName :=
  sortNames ((listdir d).filter isFullSlide)

/-- `generate_thumbnails` (lines 241-261): for each selected slide file, in
sorted order, read it and write its thumbnail.  (A selected name always
reads back `some`, since selection is from `listdir`.) -/
def generate_thumbnails (thumb_width : Nat) (d : FS) : FS :=
  (slideSelection d).foldl
    (fun acc f =>
      match fsRead acc f with
      | some img => fsWrite acc (thumb_filename f) (thumbImage thumb_width img)
      | none => acc)
    d

/-! ## Text records and metadata (`extract_text_from_pptx` lines 264-302,
`create_metadata` lines 305-318, `main` lines 366-379) -/

/-- One slide's extracted text entry (lines 297-300). -/
structure TextRecord where
  text : String
  firstLine : String
deriving DecidableEq

/-- The metadata record written by `create_metadata` (lines 307-312); the
wall-clock `generatedAt` timestamp is outside the embedding. -/
structure Metadata where
  sourceFile : String
  slideCount : Nat
  slides : List TextRecord
deriving DecidableEq

/-- `create_metadata` (lines 305-318): assemble and write the record, using
the rendered count and the extracted records exactly as given — no
comparison between them. -/
def create_metadata (sourceFile : String) (slide_count : Nat)
    (slides_text : List TextRecord) : Metadata :=
  { sourceFile := sourceFile, slideCount := slide_count, slides := slides_text }

/-- The log lines printed by `main`'s successful tail (lines 366-379) and by
the steps it calls; `warning` is any `WARNING:`-prefixed line. -/
inductive LogLine where
  | converted (n : Nat)
  | generatingThumbnails
  | extractingText
  | warning (msg : String)
  | metadataSaved
  | progress100
  | complete
deriving DecidableEq

/-- Lines 372-373 via `extract_text_from_pptx` (lines 264-271): when
python-pptx is unavailable a warning is printed and the list is empty;
otherwise extraction proceeds and yields the records. -/
def extractStep (pptxAvailable : Bool) (records : List TextRecord) :
    List TextRecord × List LogLine :=
  if pptxAvailable then (records, [.extractingText])
  else ([], [.warning "python-pptx not available, skipping text extraction"])

/-- `main`'s tail after a successful conversion (lines 366-379): report the
count, generate thumbnails, extract text, write metadata, print the final
progress line.  Returns the metadata written and every log line printed, in
order. -/
def mainTail (sourceFile : String) (slide_count : Nat) (pptxAvailable : Bool)
    (records : List TextRecord) : Metadata × List LogLine :=
  let ext := extractStep pptxAvailable records
  (create_metadata sourceFile slide_count ext.1,
   [.converted slide_count, .generatingThumbnails] ++ ext.2 ++
     [.metadataSaved, .progress100, .complete])

/-! ## Theorems -/

/-- Claim C2: for any positive source page size (w, h) and target canvas
(W, H), the fitter's scale is min(W/w, H/h); it satisfies scale·w ≤ W and
scale·h ≤ H with at least one equality (tight fit), and the centering
offsets are the floor-halved differences; in particular an 800×600 page fit
into 1920×1080 yields scale 9/5, content 1440×1080 and offsets 240 and 0. -/
theorem C2_fitter_tight_fit (W H w h : ℚ) (hw : 0 < w) (hh : 0 < h) :
    zoom W H w h = min (W / w) (H / h) ∧
    zoom W H w h * w ≤ W ∧
    zoom W H w h * h ≤ H ∧
    (zoom W H w h * w = W ∨ zoom W H w h * h = H) ∧
    (∀ Wi sw : ℤ, x_offset Wi sw = (Wi - sw).fdiv 2) ∧
    (∀ Hi sh : ℤ, y_offset Hi sh = (Hi - sh).fdiv 2) ∧
    zoom 1920 1080 800 600 = 9 / 5 ∧
    zoom 1920 1080 800 600 * 800 = 1440 ∧
    zoom 1920 1080 800 600 * 600 = 1080 ∧
    x_offset 1920 1440 = 240 ∧
    y_offset 1080 1080 = 0 := by
  have hwq : w ≠ 0 := ne_of_gt hw
  have hhq : h ≠ 0 := ne_of_gt hh
  have hWw : W / w * w = W := div_mul_cancel₀ W hwq
  have hHh : H / h * h = H := div_mul_cancel₀ H hhq
  refine ⟨rfl, ?_, ?_, ?_, fun Wi sw => rfl, fun Hi sh => rfl, by norm_num [zoom, zoom_x, zoom_y],
    by norm_num [zoom, zoom_x, zoom_y], by norm_num [zoom, zoom_x, zoom_y],
    by norm_num [x_offset, Int.fdiv], by norm_num [y_offset, Int.fdiv]⟩
  · calc zoom W H w h * w ≤ W / w * w := by
          have : zoom W H w h ≤ W / w := min_le_left _ _
          exact mul_le_mul_of_nonneg_right this (le_of_lt hw)
      _ = W := hWw
  · calc zoom W H w h * h ≤ H / h * h := by
          have : zoom W H w h ≤ H / h := min_le_right _ _
          exact mul_le_mul_of_nonneg_right this (le_of_lt hh)
      _ = H := hHh
  · rcases min_choice (W / w) (H / h) with hmin | hmin
    · exact Or.inl (by rw [zoom, zoom_x, zoom_y, hmin, hWw])
    · exact Or.inr (by rw [zoom, zoom_x, zoom_y, hmin, hHh])

/-- Witness for C2 at the spec's own example, 800×600 into 1920×1080. -/
theorem C2_fitter_tight_fit_witness :
    zoom 1920 1080 800 600 * 800 ≤ 1920 ∧
    zoom 1920 1080 800 600 * 600 ≤ 1080 ∧
    (zoom 1920 1080 800 600 * 800 = 1920 ∨ zoom 1920 1080 800 600 * 600 = 1080) ∧
    x_offset 1920 1440 = 240 ∧ y_offset 1080 1080 = 0 := by
  have h := C2_fitter_tight_fit 1920 1080 800 600 (by norm_num) (by norm_num)
  exact ⟨h.2.1, h.2.2.1, h.2.2.2.1, h.2.2.2.2.2.2.2.2.2.1, h.2.2.2.2.2.2.2.2.2.2⟩

/-- Claim C3: there is no `InvalidGeometry` guard in the code.  On a
degenerate page whose width or height is zero, the scale computation of
lines 171-172 performs a Python division by zero, raising
`ZeroDivisionError` (reaching `main`'s generic handler) instead of any
fail-fast geometry error. -/
theorem C3_zero_size_division_fault :
    (∀ W H h : ℚ, zoomCalc W H 0 h = .error .zeroDivisionError) ∧
    (∀ W H w : ℚ, w ≠ 0 → zoomCalc W H w 0 = .error .zeroDivisionError) ∧
    zoomCalc 1920 1080 0 600 = .error .zeroDivisionError := by
  refine ⟨fun W H h => by simp [zoomCalc], fun W H w hw => by simp [zoomCalc, hw], ?_⟩
  simp [zoomCalc]

/-- Witness for C3 at the concrete degenerate page 0×600. -/
theorem C3_zero_size_division_fault_witness :
    zoomCalc 1920 1080 (800 : ℚ) 0 = .error .zeroDivisionError :=
  C3_zero_size_division_fault.2.1 1920 1080 800 (by norm_num)

/-- Claim C4: with `--method auto`, the LibreOffice path is chosen iff
`find_libreoffice` succeeds AND PyMuPDF is available; otherwise the direct
path is chosen and the warning is printed; an explicit method bypasses
detection entirely. -/
theorem C4_method_selection (env : SysEnv) (py : Bool) (m : Method) :
    ((selectMethod .auto env py).1 = .libreoffice ↔
      ((find_libreoffice env).isSome = true ∧ py = true)) ∧
    (((find_libreoffice env).isSome = false ∨ py = false) →
      selectMethod .auto env py = (.direct, true)) ∧
    (m ≠ .auto → selectMethod m env py = (m, false)) := by
  refine ⟨?_, ?_, ?_⟩
  · cases hlo : (find_libreoffice env).isSome <;> cases py <;>
      simp [selectMethod, hlo]
  · rintro (hlo | hpy)
    · simp [selectMethod, hlo]
    · subst hpy
      simp [selectMethod]
  · intro hm
    cases m with
    | libreoffice => rfl
    | direct => rfl
    | auto => exact absurd rfl hm

/-- Witness for C4 on a bare Linux system (nothing found): auto falls back
to direct with the warning, and an explicit direct request is kept. -/
theorem C4_method_selection_witness :
    selectMethod .auto ⟨[], [], .linux, "/home/u"⟩ true = (.direct, true) ∧
    selectMethod .direct ⟨[], [], .linux, "/home/u"⟩ true = (.direct, false) := by
  constructor
  · exact (C4_method_selection ⟨[], [], .linux, "/home/u"⟩ true .direct).2.1
      (Or.inl (by decide))
  · exact (C4_method_selection ⟨[], [], .linux, "/home/u"⟩ true .direct).2.2
      (by decide)

/-- Claim C1: every produced full-size image has dimensions exactly
(W, H) whatever the rasterized buffer's dimensions (and likewise every
fallback placeholder); when the buffer's dimensions differ from the target
it is pasted centred onto a fresh black (W × H) canvas — pixels outside the
pasted rectangle are solid black — and when they already match, the buffer
is saved unchanged. -/
theorem C1_fixed_output_dimensions (W H : Nat) (buf : Img) :
    ((composeFinal W H buf).width = W ∧ (composeFinal W H buf).height = H) ∧
    ((placeholderImage W H).width = W ∧ (placeholderImage W H).height = H) ∧
    (buf.width = W ∧ buf.height = H → composeFinal W H buf = buf) ∧
    (buf.width ≠ W ∨ buf.height ≠ H →
      composeFinal W H buf =
        paste (imageNew W H black) buf (x_offset W buf.width)
          (y_offset H buf.height)) ∧
    (buf.width ≠ W ∨ buf.height ≠ H → ∀ x y : Nat,
      ¬(x_offset W buf.width ≤ (x : ℤ) ∧
        (x : ℤ) < x_offset W buf.width + buf.width ∧
        y_offset H buf.height ≤ (y : ℤ) ∧
        (y : ℤ) < y_offset H buf.height + buf.height) →
      (composeFinal W H buf).pix x y = black) := by
  refine ⟨?_, ⟨rfl, rfl⟩, ?_, ?_, ?_⟩
  · by_cases hd : buf.width ≠ W ∨ buf.height ≠ H
    · rw [composeFinal, if_pos hd]
      exact ⟨rfl, rfl⟩
    · push_neg at hd
      rw [composeFinal, if_neg (by push_neg; exact hd)]
      exact ⟨hd.1, hd.2⟩
  · intro hd
    rw [composeFinal, if_neg (by push_neg; exact hd)]
  · intro hd
    rw [composeFinal, if_pos hd]
  · intro hd x y hout
    rw [composeFinal, if_pos hd]
    simp only [paste, imageNew]
    rw [if_neg hout]

/-- Witness for C1: a 1440×1080 buffer composed onto 1920×1080 keeps the
target dimensions, is the centred paste onto a black canvas, and its pixel
(0, 0) — left of the content at offset 240 — is black; a buffer already at
1920×1080 is saved as-is. -/
theorem C1_fixed_output_dimensions_witness :
    (composeFinal 1920 1080 ⟨1440, 1080, fun _ _ => (9, 9, 9)⟩).width = 1920 ∧
    composeFinal 1920 1080 ⟨1440, 1080, fun _ _ => (9, 9, 9)⟩ =
      paste (imageNew 1920 1080 black) ⟨1440, 1080, fun _ _ => (9, 9, 9)⟩
        (x_offset 1920 1440) (y_offset 1080 1080) ∧
    (composeFinal 1920 1080 ⟨1440, 1080, fun _ _ => (9, 9, 9)⟩).pix 0 0 = black ∧
    composeFinal 1920 1080 ⟨1920, 1080, fun _ _ => (9, 9, 9)⟩ =
      ⟨1920, 1080, fun _ _ => (9, 9, 9)⟩ := by
  refine ⟨(C1_fixed_output_dimensions 1920 1080 _).1.1,
    (C1_fixed_output_dimensions 1920 1080 _).2.2.2.1 (by norm_num),
    (C1_fixed_output_dimensions 1920 1080 _).2.2.2.2 (by norm_num) 0 0 (by decide),
    (C1_fixed_output_dimensions 1920 1080 _).2.2.1 ⟨rfl, rfl⟩⟩

/-- Claim C10: the fallback placeholder's solid background is dark blue
(0, 0, 32), while the high-fidelity path fills its compositing canvas with
black (0, 0, 0); the two colours differ. -/
theorem C10_background_colors (W H x y : Nat) (hx : x < W) (hy : y < H) :
    (placeholderImage W H).pix x y = (0, 0, 32) ∧
    (imageNew W H black).pix x y = (0, 0, 0) ∧
    darkBlue ≠ black := by
  exact ⟨rfl, rfl, by decide⟩

/-- Witness for C10 at pixel (0, 0) of a 1920×1080 run. -/
theorem C10_background_colors_witness :
    (placeholderImage 1920 1080).pix 0 0 = (0, 0, 32) ∧
    (imageNew 1920 1080 black).pix 0 0 = (0, 0, 0) ∧
    darkBlue ≠ black :=
  C10_background_colors 1920 1080 0 0 (by norm_num) (by norm_num)

/-- The computed thumbnail box height, rewritten as a single floor. -/
theorem thumb_boxHeight_eq (tw w h : Nat) (hw : 0 < w) (hh : 0 < h) :
    (thumbSaveParams tw w h).boxHeight = ⌊((tw * h : ℕ) : ℚ) / (w : ℚ)⌋ := by
  have hwq : ((w : ℚ)) ≠ 0 := by positivity
  have hhq : ((h : ℚ)) ≠ 0 := by positivity
  have hq : (tw : ℚ) / ((w : ℚ) / (h : ℚ)) = ((tw * h : ℕ) : ℚ) / (w : ℚ) := by
    push_cast
    field_simp
  simp only [thumbSaveParams, pytrunc, hq]
  rw [if_pos (by positivity)]

/-- Claim C7 counterexample: the claim's `round` formula disagrees with the
code.  For a 1920×1080 full-size image and thumbnail width 300 the code's
`int(thumb_width / aspect)` (truncation of 168.75) gives 168, while
`round(targetWidth / (imageWidth / imageHeight))` gives 169. -/
theorem C7_round_formula_counterexample :
    (thumbSaveParams 300 1920 1080).boxHeight = 168 ∧
    specThumbHeight 300 1920 1080 = 169 ∧
    (thumbSaveParams 300 1920 1080).boxHeight ≠ specThumbHeight 300 1920 1080 := by
  have hb : (thumbSaveParams 300 1920 1080).boxHeight = 168 := by
    rw [thumb_boxHeight_eq 300 1920 1080 (by norm_num) (by norm_num)]
    rw [show (((300 * 1080 : ℕ) : ℚ) / ((1920 : ℕ) : ℚ)) = 675 / 4 by norm_num]
    exact Int.floor_eq_iff.2 (by norm_num)
  have hs : specThumbHeight 300 1920 1080 = 169 := by
    rw [specThumbHeight,
      show (((300 : ℕ) : ℚ) / (((1920 : ℕ) : ℚ) / ((1080 : ℕ) : ℚ))) = 675 / 4 by
        norm_num,
      round_eq, show (675 / 4 + 1 / 2 : ℚ) = 677 / 4 by norm_num]
    exact Int.floor_eq_iff.2 (by norm_num)
  exact ⟨hb, hs, by rw [hb, hs]; decide⟩

/-- Claim C7 (amended): the thumbnail target height is
`int(targetWidth / (imageWidth / imageHeight))` — Python truncation, i.e.
⌊targetWidth·imageHeight / imageWidth⌋ for positive dimensions — and the
thumbnail is saved as JPEG at quality 85 with LANCZOS resampling. -/
theorem C7_thumbnail_params (tw w h : Nat) (hw : 0 < w) (hh : 0 < h) :
    thumbSaveParams tw w h =
      { boxWidth := tw, boxHeight := ⌊((tw * h : ℕ) : ℚ) / (w : ℚ)⌋,
        filterUsed := .lanczos, quality := 85 } := by
  have hb := thumb_boxHeight_eq tw w h hw hh
  have hfix : thumbSaveParams tw w h =
      { boxWidth := tw, boxHeight := (thumbSaveParams tw w h).boxHeight,
        filterUsed := .lanczos, quality := 85 } := rfl
  rw [hfix, hb]

/-- Witness for C7 at the defaults: width 300 thumbnail of a 1920×1080
image. -/
theorem C7_thumbnail_params_witness :
    thumbSaveParams 300 1920 1080 =
      { boxWidth := 300, boxHeight := ⌊((300 * 1080 : ℕ) : ℚ) / (1920 : ℚ)⌋,
        filterUsed := .lanczos, quality := 85 } :=
  C7_thumbnail_params 300 1920 1080 (by norm_num) (by norm_num)

/-- Is this log line a `WARNING:` line? -/
def isWarning : LogLine → Bool
  | .warning _ => true
  | _ => false

/-- Claim C9 counterexample: on a run whose rendered count (2) differs from
its extracted-record count (1), no warning line at all is printed — the
mismatch is not logged — even though the metadata is still written with both
counts as-is. -/
theorem C9_mismatch_not_logged_counterexample :
    (mainTail "deck.pptx" 2 true [⟨"hello world", "hello world"⟩]).1 =
      { sourceFile := "deck.pptx", slideCount := 2,
        slides := [⟨"hello world", "hello world"⟩] } ∧
    ([(⟨"hello world", "hello world"⟩ : TextRecord)].length ≠ 2) ∧
    (mainTail "deck.pptx" 2 true
      [⟨"hello world", "hello world"⟩]).2.filter (fun l => isWarning l) = [] := by
  refine ⟨rfl, by decide, rfl⟩

/-- Claim C9 (amended): a count mismatch between rendering and extraction is
not detected or logged, and it is not fatal: the metadata file is still
written with the rendered `slideCount` and the extracted slides list as
given, and no warning is printed in the successful tail. -/
theorem C9_mismatch_tolerated (src : String) (n : Nat)
    (records : List TextRecord) (hne : records.length ≠ n) :
    (mainTail src n true records).1 =
      { sourceFile := src, slideCount := n, slides := records } ∧
    (mainTail src n true records).2.filter (fun l => isWarning l) = [] := by
  refine ⟨rfl, ?_⟩
  simp [mainTail, extractStep, isWarning]

/-- Witness for C9 (amended) at rendered count 3 versus one extracted
record. -/
theorem C9_mismatch_tolerated_witness :
    (mainTail "deck.pptx" 3 true [⟨"a b c", "a b c"⟩]).1 =
      { sourceFile := "deck.pptx", slideCount := 3,
        slides := [⟨"a b c", "a b c"⟩] } ∧
    (mainTail "deck.pptx" 3 true
      [⟨"a b c", "a b c"⟩]).2.filter (fun l => isWarning l) = [] :=
  C9_mismatch_tolerated "deck.pptx" 3 [⟨"a b c", "a b c"⟩] (by decide)

/-- Claim C5: in the high-fidelity path, a missing binary, a non-zero
subprocess exit, a timeout, and a missing output PDF after the two-step
lookup each produce their own distinct conversion error; an error makes the
run exit with status 1; and the scoped temp-directory events are balanced
(released exactly as often as acquired) on every possible outcome. -/
theorem C5_libreoffice_failure_modes :
    (∀ env : LOEnv, env.soffice = none →
      convert_with_libreoffice env = (.error .libreofficeNotFound, [])) ∧
    (∀ env : LOEnv, ∀ p : String, env.soffice = some p →
      env.outcome = .timedOut →
      convert_with_libreoffice env =
        (.error .conversionTimedOut, [.acquire, .release])) ∧
    (∀ env : LOEnv, ∀ p : String, ∀ rc : ℤ, ∀ out err : String,
      env.soffice = some p → env.outcome = .completed rc out err → rc ≠ 0 →
      ∃ msg, convert_with_libreoffice env =
        (.error (.conversionFailed msg), [.acquire, .release])) ∧
    (∀ env : LOEnv, ∀ p : String, ∀ out err : String,
      env.soffice = some p → env.outcome = .completed 0 out err →
      env.expectedPdfExists = false → env.globPdfs = [] →
      convert_with_libreoffice env =
        (.error .pdfNotGenerated, [.acquire, .release])) ∧
    (ConvError.libreofficeNotFound ≠ ConvError.conversionTimedOut ∧
     ConvError.libreofficeNotFound ≠ ConvError.pdfNotGenerated ∧
     ConvError.conversionTimedOut ≠ ConvError.pdfNotGenerated ∧
     ∀ msg, ConvError.conversionFailed msg ≠ ConvError.libreofficeNotFound ∧
       ConvError.conversionFailed msg ≠ ConvError.conversionTimedOut ∧
       ConvError.conversionFailed msg ≠ ConvError.pdfNotGenerated) ∧
    (∀ e : ConvError, exitCode (.error e) = 1) ∧
    (∀ env : LOEnv,
      (convert_with_libreoffice env).2.count TempEvent.release =
        (convert_with_libreoffice env).2.count TempEvent.acquire) := by
  refine ⟨?_, ?_, ?_, ?_, ?_, fun e => rfl, ?_⟩
  · intro env hs
    simp [convert_with_libreoffice, hs]
  · intro env p hs ho
    simp [convert_with_libreoffice, libreofficeBody, hs, ho]
  · intro env p rc out err hs ho hrc
    refine ⟨if err ≠ "" then err
      else if out ≠ "" then out
      else "Unknown error (exit code: " ++ toString rc ++ ")", ?_⟩
    simp [convert_with_libreoffice, libreofficeBody, hs, ho, hrc]
  · intro env p out err hs ho hpdf hglob
    simp [convert_with_libreoffice, libreofficeBody, hs, ho, hpdf, hglob]
  · exact ⟨by decide, by decide, by decide,
      fun msg => ⟨fun hcon => ConvError.noConfusion hcon,
        fun hcon => ConvError.noConfusion hcon,
        fun hcon => ConvError.noConfusion hcon⟩⟩
  · intro env
    rcases env with ⟨soffice, outcome, pdfE, glob, pages⟩
    cases soffice <;> rfl

/-- Witness for C5: one concrete environment per failure mode. -/
theorem C5_libreoffice_failure_modes_witness :
    convert_with_libreoffice ⟨none, .timedOut, false, [], 0⟩ =
      (.error .libreofficeNotFound, []) ∧
    convert_with_libreoffice ⟨some "soffice", .timedOut, false, [], 0⟩ =
      (.error .conversionTimedOut, [.acquire, .release]) ∧
    (∃ msg, convert_with_libreoffice
        ⟨some "soffice", .completed 77 "" "boom", false, [], 0⟩ =
      (.error (.conversionFailed msg), [.acquire, .release])) ∧
    convert_with_libreoffice ⟨some "soffice", .completed 0 "" "", false, [], 0⟩ =
      (.error .pdfNotGenerated, [.acquire, .release]) ∧
    exitCode (.error .conversionTimedOut) = 1 := by
  refine ⟨C5_libreoffice_failure_modes.1 _ rfl,
    C5_libreoffice_failure_modes.2.1 _ "soffice" rfl rfl,
    C5_libreoffice_failure_modes.2.2.1 _ "soffice" 77 "" "boom" rfl rfl
      (by decide),
    C5_libreoffice_failure_modes.2.2.2.1 _ "soffice" "" "" rfl rfl rfl rfl,
    C5_libreoffice_failure_modes.2.2.2.2.2.1 .conversionTimedOut⟩

/-- Powers of two combine over integer exponents. -/
theorem zpow_add_two (a b : ℤ) :
    (2 : ℚ) ^ a * (2 : ℚ) ^ b = (2 : ℚ) ^ (a + b) :=
  (zpow_add₀ (by norm_num) a b).symm

/-- The binary logarithm at a concrete bracketing. -/
theorem log2_eq {q : ℚ} {z : ℤ} (hq : 0 < q) (h1 : (2 : ℚ) ^ z ≤ q)
    (h2 : q < (2 : ℚ) ^ (z + 1)) : Int.log 2 q = z := by
  have ha := (Int.zpow_le_iff_le_log (by norm_num) hq).1 h1
  have hb := (Int.lt_zpow_iff_log_lt (by norm_num) hq).1 h2
  exact le_antisymm (Int.lt_add_one_iff.1 hb) ha

/-- Rounding to the nearest integer never falls below the floor. -/
theorem floor_le_rnde (q : ℚ) : ⌊q⌋ ≤ rnde q := by
  rw [rnde]
  repeat' split
  all_goals omega

/-- Rounding to the nearest integer never exceeds the floor plus one. -/
theorem rnde_le_floor_add_one (q : ℚ) : rnde q ≤ ⌊q⌋ + 1 := by
  rw [rnde]
  repeat' split
  all_goals omega

/-- An integer lower bound survives nearest rounding. -/
theorem le_rnde {n : ℤ} {q : ℚ} (h : (n : ℚ) ≤ q) : n ≤ rnde q :=
  le_trans (Int.le_floor.2 h) (floor_le_rnde q)

/-- A strict integer upper bound survives nearest rounding. -/
theorem rnde_le {n : ℤ} {q : ℚ} (h : q < (n : ℚ)) : rnde q ≤ n := by
  have h1 : ⌊q⌋ < n := Int.floor_lt.2 h
  have h2 := rnde_le_floor_add_one q
  omega

/-- Integers round to themselves. -/
theorem rnde_intCast (n : ℤ) : rnde (n : ℚ) = n := by
  rw [rnde, Int.floor_intCast, if_pos (by norm_num)]

/-- Below the half-way point, nearest rounding is the floor. -/
theorem rnde_eq_floor (q : ℚ) (h : q - ⌊q⌋ < 1/2) : rnde q = ⌊q⌋ := by
  rw [rnde, if_pos h]

/-- Above the half-way point, nearest rounding is the ceiling. -/
theorem rnde_eq_floor_add_one (q : ℚ) (h : 1/2 < q - ⌊q⌋) :
    rnde q = ⌊q⌋ + 1 := by
  rw [rnde, if_neg (by linarith), if_pos h]

/-- Round-to-nearest (ties to even) is monotone. -/
theorem rnde_mono {x y : ℚ} (h : x ≤ y) : rnde x ≤ rnde y := by
  rcases lt_or_ge ⌊x⌋ ⌊y⌋ with hf | hf
  · have h1 := rnde_le_floor_add_one x
    have h2 := floor_le_rnde y
    omega
  · have hfe : ⌊x⌋ = ⌊y⌋ := le_antisymm (Int.floor_le_floor h) hf
    have hfq : ((⌊x⌋ : ℤ) : ℚ) = ((⌊y⌋ : ℤ) : ℚ) := by rw [hfe]
    by_cases c1 : x - ⌊x⌋ < 1/2
    · rw [rnde_eq_floor x c1, hfe]
      exact floor_le_rnde y
    · by_cases c2 : 1/2 < x - ⌊x⌋
      · have c2y : 1/2 < y - ⌊y⌋ := by linarith
        rw [rnde_eq_floor_add_one x c2, rnde_eq_floor_add_one y c2y, hfe]
      · have hx2 : x - ⌊x⌋ = 1/2 := le_antisymm (not_lt.1 c2) (not_lt.1 c1)
        by_cases c3 : 1/2 < y - ⌊y⌋
        · rw [rnde_eq_floor_add_one y c3, ← hfe]
          exact rnde_le_floor_add_one x
        · have hy2 : y - ⌊y⌋ = 1/2 := by
            have hyge : 1/2 ≤ y - ⌊y⌋ := by linarith
            exact le_antisymm (not_lt.1 c3) hyge
          have hxy : x = y := by linarith
          rw [hxy]

/-- The double rounding of a positive rational is at least 2^⌊log₂ q⌋. -/
theorem flPos_lower {q : ℚ} (hq : 0 < q) :
    (2 : ℚ) ^ Int.log 2 q ≤ flPos q := by
  have hzs : (0 : ℚ) < (2 : ℚ) ^ (52 - Int.log 2 q) := zpow_pos (by norm_num) _
  have hzt : (0 : ℚ) < (2 : ℚ) ^ (Int.log 2 q - 52) := zpow_pos (by norm_num) _
  have hk : (2 : ℚ) ^ Int.log 2 q ≤ q := Int.zpow_log_le_self (by norm_num) hq
  have hx : ((2 ^ 52 : ℤ) : ℚ) ≤ q * (2 : ℚ) ^ (52 - Int.log 2 q) := by
    calc ((2 ^ 52 : ℤ) : ℚ) = (2 : ℚ) ^ (52 : ℤ) := by push_cast; norm_num
      _ = (2 : ℚ) ^ Int.log 2 q * (2 : ℚ) ^ (52 - Int.log 2 q) := by
          rw [zpow_add_two]
          norm_num
      _ ≤ q * (2 : ℚ) ^ (52 - Int.log 2 q) :=
          mul_le_mul_of_nonneg_right hk hzs.le
  have hr : (2 ^ 52 : ℤ) ≤ rnde (q * (2 : ℚ) ^ (52 - Int.log 2 q)) := le_rnde hx
  calc (2 : ℚ) ^ Int.log 2 q
      = ((2 ^ 52 : ℤ) : ℚ) * (2 : ℚ) ^ (Int.log 2 q - 52) := by
        rw [show ((2 ^ 52 : ℤ) : ℚ) = (2 : ℚ) ^ (52 : ℤ) from by push_cast; norm_num,
          zpow_add_two]
        norm_num
    _ ≤ ((rnde (q * (2 : ℚ) ^ (52 - Int.log 2 q)) : ℤ) : ℚ) *
          (2 : ℚ) ^ (Int.log 2 q - 52) :=
        mul_le_mul_of_nonneg_right (by exact_mod_cast hr) hzt.le
    _ = flPos q := rfl

/-- The double rounding of a positive rational is at most 2^(⌊log₂ q⌋+1). -/
theorem flPos_upper {q : ℚ} (hq : 0 < q) :
    flPos q ≤ (2 : ℚ) ^ (Int.log 2 q + 1) := by
  have hzs : (0 : ℚ) < (2 : ℚ) ^ (52 - Int.log 2 q) := zpow_pos (by norm_num) _
  have hzt : (0 : ℚ) < (2 : ℚ) ^ (Int.log 2 q - 52) := zpow_pos (by norm_num) _
  have hk : q < (2 : ℚ) ^ (Int.log 2 q + 1) :=
    Int.lt_zpow_succ_log_self (by norm_num) q
  have hx : q * (2 : ℚ) ^ (52 - Int.log 2 q) < ((2 ^ 53 : ℤ) : ℚ) := by
    calc q * (2 : ℚ) ^ (52 - Int.log 2 q)
        < (2 : ℚ) ^ (Int.log 2 q + 1) * (2 : ℚ) ^ (52 - Int.log 2 q) :=
          mul_lt_mul_of_pos_right hk hzs
      _ = ((2 ^ 53 : ℤ) : ℚ) := by
          rw [zpow_add_two,
            show Int.log 2 q + 1 + (52 - Int.log 2 q) = 53 from by ring]
          push_cast
          norm_num
  have hr : rnde (q * (2 : ℚ) ^ (52 - Int.log 2 q)) ≤ 2 ^ 53 := rnde_le hx
  calc flPos q
      ≤ ((2 ^ 53 : ℤ) : ℚ) * (2 : ℚ) ^ (Int.log 2 q - 52) :=
        mul_le_mul_of_nonneg_right (by exact_mod_cast hr) hzt.le
    _ = (2 : ℚ) ^ (Int.log 2 q + 1) := by
        rw [show ((2 ^ 53 : ℤ) : ℚ) = (2 : ℚ) ^ (53 : ℤ) from by push_cast; norm_num,
          zpow_add_two, show (53 : ℤ) + (Int.log 2 q - 52) = Int.log 2 q + 1 from by
            ring]

/-- The double rounding of a positive rational is positive. -/
theorem flPos_pos {q : ℚ} (hq : 0 < q) : 0 < flPos q :=
  lt_of_lt_of_le (zpow_pos (by norm_num) _) (flPos_lower hq)

/-- The double rounding is monotone on positive rationals. -/
theorem flPos_mono {x y : ℚ} (hx : 0 < x) (hxy : x ≤ y) :
    flPos x ≤ flPos y := by
  have hy : 0 < y := lt_of_lt_of_le hx hxy
  have hk : Int.log 2 x ≤ Int.log 2 y := Int.log_mono_right hx hxy
  rcases eq_or_lt_of_le hk with he | hlt
  · rw [flPos, flPos, ← he]
    have hzs : (0 : ℚ) < (2 : ℚ) ^ (52 - Int.log 2 x) := zpow_pos (by norm_num) _
    have hzt : (0 : ℚ) ≤ (2 : ℚ) ^ (Int.log 2 x - 52) :=
      (zpow_pos (by norm_num) _).le
    exact mul_le_mul_of_nonneg_right
      (by exact_mod_cast rnde_mono (mul_le_mul_of_nonneg_right hxy hzs.le)) hzt
  · calc flPos x ≤ (2 : ℚ) ^ (Int.log 2 x + 1) := flPos_upper hx
      _ ≤ (2 : ℚ) ^ Int.log 2 y := zpow_le_zpow_right₀ (by norm_num) (by omega)
      _ ≤ flPos y := flPos_lower hy

/-- Zero is an exact double. -/
theorem fl_zero : fl 0 = 0 := by
  rw [fl, if_pos rfl]

/-- On positives, `fl` is the positive rounding. -/
theorem fl_of_pos {q : ℚ} (hq : 0 < q) : fl q = flPos q := by
  rw [fl, if_neg (ne_of_gt hq), if_neg (not_lt.2 hq.le)]

/-- Rounding to a double preserves nonnegativity. -/
theorem fl_nonneg {q : ℚ} (hq : 0 ≤ q) : 0 ≤ fl q := by
  rcases eq_or_lt_of_le hq with he | hpos
  · rw [← he, fl_zero]
  · rw [fl_of_pos hpos]
    exact (flPos_pos hpos).le

/-- Rounding to the nearest double is monotone. -/
theorem fl_mono {x y : ℚ} (h : x ≤ y) : fl x ≤ fl y := by
  rcases lt_trichotomy x 0 with hx | hx | hx
  · have hfx : fl x = -flPos (-x) := by
      rw [fl, if_neg (ne_of_lt hx), if_pos hx]
    have hfxneg : fl x ≤ 0 := by
      rw [hfx]
      exact neg_nonpos.2 (flPos_pos (neg_pos.2 hx)).le
    rcases lt_trichotomy y 0 with hy | hy | hy
    · have hfy : fl y = -flPos (-y) := by
        rw [fl, if_neg (ne_of_lt hy), if_pos hy]
      rw [hfx, hfy, neg_le_neg_iff]
      exact flPos_mono (neg_pos.2 hy) (by linarith)
    · rw [hy, fl_zero]
      exact hfxneg
    · exact le_trans hfxneg (fl_nonneg hy.le)
  · rw [hx] at h ⊢
    rw [fl_zero]
    exact fl_nonneg h
  · have hy : 0 < y := lt_of_lt_of_le hx h
    rw [fl_of_pos hx, fl_of_pos hy]
    exact flPos_mono hx h

/-- One is an exact double. -/
theorem fl_one : fl 1 = 1 := by
  rw [fl_of_pos one_pos, flPos, Int.log_one_right]
  rw [show (52 : ℤ) - 0 = 52 from by ring, show (0 : ℤ) - 52 = -52 from by ring,
    one_mul]
  rw [show (2 : ℚ) ^ (52 : ℤ) = ((2 ^ 52 : ℤ) : ℚ) from by push_cast; norm_num]
  rw [rnde_intCast]
  rw [show ((2 ^ 52 : ℤ) : ℚ) = (2 : ℚ) ^ (52 : ℤ) from by push_cast; norm_num]
  rw [zpow_add_two]
  norm_num

/-- One hundred is an exact double. -/
theorem fl_hundred : fl 100 = 100 := by
  have hlog : Int.log 2 (100 : ℚ) = 6 :=
    log2_eq (by norm_num) (by norm_num) (by norm_num)
  rw [fl_of_pos (by norm_num), flPos, hlog]
  rw [show (52 : ℤ) - 6 = 46 from by ring, show (6 : ℤ) - 52 = -46 from by ring]
  rw [show (100 : ℚ) * (2 : ℚ) ^ (46 : ℤ) = ((100 * 2 ^ 46 : ℤ) : ℚ) from by
    push_cast; norm_num]
  rw [rnde_intCast]
  rw [show ((100 * 2 ^ 46 : ℤ) : ℚ) = 100 * (2 : ℚ) ^ (46 : ℤ) from by
    push_cast; norm_num]
  rw [mul_assoc, zpow_add_two]
  norm_num

/-- Every tick is nonnegative. -/
theorem pageProgress_nonneg (total i : Nat) : 0 ≤ pageProgress total i := by
  have h3 : (0 : ℚ) ≤ fl (fl ((i : ℚ) / (total : ℚ)) * 100) :=
    fl_nonneg (mul_nonneg (fl_nonneg (by positivity)) (by norm_num))
  rw [pageProgress, pytrunc, if_pos h3]
  exact Int.floor_nonneg.2 h3

/-- The per-page tick is monotone in the page index. -/
theorem pageProgress_mono (total : Nat) {i j : Nat} (hij : i ≤ j) :
    pageProgress total i ≤ pageProgress total j := by
  have hdiv : (i : ℚ) / (total : ℚ) ≤ (j : ℚ) / (total : ℚ) := by
    rcases Nat.eq_zero_or_pos total with h0 | hpos
    · subst h0
      norm_num
    · gcongr
  have h2 : fl ((i : ℚ) / (total : ℚ)) * 100 ≤ fl ((j : ℚ) / (total : ℚ)) * 100 :=
    mul_le_mul_of_nonneg_right (fl_mono hdiv) (by norm_num)
  have h3 := fl_mono h2
  have hnn_i : (0 : ℚ) ≤ fl (fl ((i : ℚ) / (total : ℚ)) * 100) :=
    fl_nonneg (mul_nonneg (fl_nonneg (by positivity)) (by norm_num))
  have hnn_j : (0 : ℚ) ≤ fl (fl ((j : ℚ) / (total : ℚ)) * 100) :=
    fl_nonneg (mul_nonneg (fl_nonneg (by positivity)) (by norm_num))
  simp only [pageProgress, pytrunc]
  rw [if_pos hnn_i, if_pos hnn_j]
  exact Int.floor_le_floor h3

/-- Every per-page tick of a `total`-page run is at most 100. -/
theorem pageProgress_le_100 (total i : Nat) (hi : i ≤ total)
    (hpos : 0 < total) : pageProgress total i ≤ 100 := by
  have ht : (0 : ℚ) < (total : ℚ) := by exact_mod_cast hpos
  have hdiv : (i : ℚ) / (total : ℚ) ≤ 1 := by
    rw [div_le_one ht]
    exact_mod_cast hi
  have h1 : fl ((i : ℚ) / (total : ℚ)) ≤ 1 :=
    le_of_le_of_eq (fl_mono hdiv) fl_one
  have h2 : fl ((i : ℚ) / (total : ℚ)) * 100 ≤ 100 := by linarith
  have h3 : fl (fl ((i : ℚ) / (total : ℚ)) * 100) ≤ 100 :=
    le_of_le_of_eq (fl_mono h2) fl_hundred
  have hnn : (0 : ℚ) ≤ fl (fl ((i : ℚ) / (total : ℚ)) * 100) :=
    fl_nonneg (mul_nonneg (fl_nonneg (by positivity)) (by norm_num))
  simp only [pageProgress, pytrunc]
  rw [if_pos hnn]
  calc ⌊fl (fl ((i : ℚ) / (total : ℚ)) * 100)⌋ ≤ ⌊(100 : ℚ)⌋ :=
        Int.floor_le_floor h3
    _ = 100 := by norm_num [Int.floor_eq_iff]

/-- The tick printed after the last page is exactly 100. -/
theorem pageProgress_last (total : Nat) (hpos : 0 < total) :
    pageProgress total total = 100 := by
  have ht : ((total : ℚ)) ≠ 0 := by positivity
  rw [pageProgress, div_self ht, fl_one, one_mul, fl_hundred, pytrunc,
    if_pos (by norm_num)]
  norm_num [Int.floor_eq_iff]

/-- Claim C6 counterexample: the claim's exact floor formula is wrong for
the program, which evaluates line 202 in double arithmetic.  After page 29
of a 100-page run the code prints PROGRESS:28 — the double product
(29/100)·100 is 28.999999999999996…, truncated to 28 — while
⌊(29/100)·100⌋ = 29. -/
theorem C6_floor_formula_counterexample :
    pageProgress 100 29 = 28 ∧
    ⌊((29 : ℚ) / (100 : ℚ)) * 100⌋ = 29 ∧
    pageProgress 100 29 ≠ ⌊((29 : ℚ) / (100 : ℚ)) * 100⌋ := by
  -- The double nearest to 29/100 is 5224175567749775·2⁻⁵⁴.
  have hlog1 : Int.log 2 ((29 : ℚ) / 100) = -2 :=
    log2_eq (by norm_num) (by norm_num) (by norm_num)
  have hfloor1 : ⌊(29 : ℚ) / 100 * (2 : ℚ) ^ (54 : ℤ)⌋ = 5224175567749775 := by
    rw [show (29 : ℚ) / 100 * (2 : ℚ) ^ (54 : ℤ) = 522417556774977536/100 from by
      norm_num]
    exact Int.floor_eq_iff.2 (by norm_num)
  have hfl1 : fl ((29 : ℚ) / 100) =
      (5224175567749775 : ℚ) * (2 : ℚ) ^ (-54 : ℤ) := by
    rw [fl_of_pos (by norm_num), flPos, hlog1]
    rw [show (52 : ℤ) - (-2) = 54 from by ring,
      show (-2 : ℤ) - 52 = -54 from by ring]
    rw [rnde_eq_floor _ (by rw [hfloor1]; norm_num), hfloor1]
    norm_num
  -- Multiplying that double by 100 and rounding again gives
  -- 8162774324609023·2⁻⁴⁸ = 28.999999999999996….
  have hlog2 : Int.log 2 ((522417556774977500 : ℚ) * (2 : ℚ) ^ (-54 : ℤ)) = 4 :=
    log2_eq (by norm_num) (by norm_num) (by norm_num)
  have hfloor2 : ⌊(522417556774977500 : ℚ) * (2 : ℚ) ^ (-54 : ℤ) *
      (2 : ℚ) ^ (48 : ℤ)⌋ = 8162774324609023 := by
    rw [show (522417556774977500 : ℚ) * (2 : ℚ) ^ (-54 : ℤ) *
        (2 : ℚ) ^ (48 : ℤ) = 522417556774977500/64 from by norm_num]
    exact Int.floor_eq_iff.2 (by norm_num)
  have hfl2 : fl ((522417556774977500 : ℚ) * (2 : ℚ) ^ (-54 : ℤ)) =
      (8162774324609023 : ℚ) * (2 : ℚ) ^ (-48 : ℤ) := by
    rw [fl_of_pos (by norm_num), flPos, hlog2]
    rw [show (52 : ℤ) - 4 = 48 from by ring, show (4 : ℤ) - 52 = -48 from by ring]
    rw [rnde_eq_floor _ (by rw [hfloor2]; norm_num), hfloor2]
    norm_num
  -- Truncating 28.999999999999996… gives 28.
  have hpp : pageProgress 100 29 = 28 := by
    rw [pageProgress]
    rw [show ((29 : ℕ) : ℚ) / ((100 : ℕ) : ℚ) = (29 : ℚ) / 100 from by norm_num]
    rw [hfl1]
    rw [show (5224175567749775 : ℚ) * (2 : ℚ) ^ (-54 : ℤ) * 100 =
      (522417556774977500 : ℚ) * (2 : ℚ) ^ (-54 : ℤ) from by ring]
    rw [hfl2, pytrunc, if_pos (by norm_num)]
    rw [show (8162774324609023 : ℚ) * (2 : ℚ) ^ (-48 : ℤ) =
      8162774324609023/281474976710656 from by norm_num]
    exact Int.floor_eq_iff.2 (by norm_num)
  have hexact : ⌊((29 : ℚ) / (100 : ℚ)) * 100⌋ = 29 := by
    rw [show ((29 : ℚ) / (100 : ℚ)) * 100 = 29 from by norm_num]
    exact Int.floor_eq_iff.2 (by norm_num)
  refine ⟨hpp, hexact, ?_⟩
  rw [hpp, hexact]
  decide

/-- Claim C6 (amended): across a successful run the emitted progress values
are monotonically non-decreasing and lie in [0, 100]; the tick after the
i-th of `total` pages is int((i/total)·100) evaluated in IEEE-754 double
arithmetic — which can fall one below ⌊100·i / total⌋ — and the final
emitted value, printed after the thumbnail/text/metadata post-processing
steps, is 100. -/
theorem C6_progress_protocol (total : Nat) :
    List.Chain' (fun a b => a ≤ b) (runProgress total) ∧
    (runProgress total).getLast? = some 100 ∧
    (∀ i, 1 ≤ i → i ≤ total →
      pageProgress total i = pytrunc (fl (fl ((i : ℚ) / (total : ℚ)) * 100)) ∧
      0 ≤ pageProgress total i ∧ pageProgress total i ≤ 100) ∧
    (∃ pre, mainSteps total =
      pre ++ [MainStep.metadataSaved, MainStep.progressLine 100]) := by
  have hchain : List.Chain' (fun a b => a ≤ b) (progressTicks total) := by
    rw [progressTicks, List.chain'_map]
    cases total with
    | zero => simp
    | succ n =>
        rw [List.chain'_range_succ]
        intro m hm
        exact pageProgress_mono (n + 1) (by omega)
  refine ⟨?_, ?_, ?_, ?_⟩
  · rw [runProgress]
    refine List.chain'_append.2 ⟨hchain, List.chain'_singleton _, ?_⟩
    intro x hx y hy
    simp only [List.head?_cons, Option.mem_def, Option.some.injEq] at hy
    subst hy
    cases total with
    | zero => simp [progressTicks] at hx
    | succ n =>
        have hsplit : progressTicks (n + 1) =
            (List.range n).map (fun k => pageProgress (n + 1) (k + 1)) ++
              [pageProgress (n + 1) (n + 1)] := by
          rw [progressTicks, List.range_succ, List.map_append]
          rfl
        rw [hsplit, List.getLast?_concat] at hx
        simp only [Option.mem_def, Option.some.injEq] at hx
        subst hx
        rw [pageProgress_last (n + 1) (Nat.succ_pos n)]
  · rw [runProgress, List.getLast?_concat]
  · intro i hi1 hit
    exact ⟨rfl, pageProgress_nonneg total i,
      pageProgress_le_100 total i hit (by omega)⟩
  · exact ⟨(progressTicks total).map .progressLine ++
      [MainStep.thumbnailsGenerated, MainStep.textExtracted], by
        rw [mainSteps, List.append_assoc]
        rfl⟩

/-- Witness for C6 on a three-page run. -/
theorem C6_progress_protocol_witness :
    List.Chain' (fun a b => a ≤ b) (runProgress 3) ∧
    (0 ≤ pageProgress 3 2 ∧ pageProgress 3 2 ≤ 100) :=
  ⟨(C6_progress_protocol 3).1,
   ((C6_progress_protocol 3).2.2.1 2 (by norm_num) (by norm_num)).2⟩

/-! ### String-level facts about the thumbnail naming convention -/

/-- A string that starts with `sub` contains `sub`. -/
theorem containsSub_of_isPrefixOf {sub l : FileName}
    (h : sub.isPrefixOf l = true) : containsSub sub l = true := by
  cases l with
  | nil =>
      have : sub = [] := by
        cases sub with
        | nil => rfl
        | cons a t => simp [List.isPrefixOf] at h
      subst this
      rfl
  | cons c t =>
      rw [containsSub, Bool.or_eq_true]
      exact Or.inl h

/-- A string whose tail contains `sub` contains `sub`. -/
theorem containsSub_cons_of_tail {sub : FileName} {c : Char} {t : FileName}
    (h : containsSub sub t = true) : containsSub sub (c :: t) = true := by
  rw [containsSub, Bool.or_eq_true]
  exact Or.inr h

/-- `"_thumb"` is a prefix of `"_thumb.jpg" ++ r` for any `r`. -/
theorem thumbMark_isPrefixOf_thumbJpg_append (r : FileName) :
    thumbMark.isPrefixOf (thumbJpgMark ++ r) = true := rfl

/-- If `".jpg"` is a suffix of `c :: t` but not a prefix of it, it is a
suffix of `t`. -/
theorem jpg_suffix_tail {c : Char} {t : FileName}
    (hs : jpgMark.isSuffixOf (c :: t) = true)
    (hp : ¬jpgMark.isPrefixOf (c :: t) = true) :
    jpgMark.isSuffixOf t = true := by
  rw [List.isSuffixOf_iff_suffix] at hs ⊢
  rcases List.suffix_cons_iff.1 hs with heq | hsuf
  · exfalso
    apply hp
    rw [List.isPrefixOf_iff_prefix, heq]
  · exact hsuf

/-- Core naming fact: replacing `".jpg"` by `"_thumb.jpg"` in any string that
ends in `".jpg"` yields a string containing `"_thumb"`. -/
theorem thumb_contains_aux (n : Nat) :
    ∀ s : FileName, s.length ≤ n → jpgMark.isSuffixOf s = true →
      containsSub thumbMark (replaceAll jpgMark thumbJpgMark s) = true := by
  induction n with
  | zero =>
      intro s hlen hs
      have : s = [] := List.length_eq_zero.1 (Nat.le_zero.1 hlen)
      subst this
      simp [List.isSuffixOf, List.isPrefixOf] at hs
  | succ n ih =>
      intro s hlen hs
      cases s with
      | nil => simp [List.isSuffixOf, List.isPrefixOf] at hs
      | cons c t =>
          rw [replaceAll,
            dif_neg (show ¬(jpgMark.isEmpty = true ∨ (c :: t).isEmpty = true) by
              simp [jpgMark])]
          by_cases hp : jpgMark.isPrefixOf (c :: t) = true
          · rw [dif_pos hp]
            exact containsSub_of_isPrefixOf (thumbMark_isPrefixOf_thumbJpg_append _)
          · rw [dif_neg hp]
            exact containsSub_cons_of_tail
              (ih t (by simpa using Nat.le_of_succ_le_succ hlen)
                (jpg_suffix_tail hs hp))

/-- As above, for `thumb_filename`. -/
theorem thumb_filename_contains {s : FileName}
    (hs : jpgMark.isSuffixOf s = true) :
    containsSub thumbMark (thumb_filename s) = true :=
  thumb_contains_aux s.length s le_rfl hs

/-- A selected full-size slide name ends in `".jpg"`. -/
theorem jpg_suffix_of_fullslide {f : FileName} (h : isFullSlide f = true) :
    jpgMark.isSuffixOf f = true := by
  simp only [isFullSlide, Bool.and_eq_true] at h
  exact h.1.2

/-- A selected full-size slide name does not contain `"_thumb"`. -/
theorem notcontains_of_fullslide {f : FileName} (h : isFullSlide f = true) :
    containsSub thumbMark f = false := by
  simp only [isFullSlide, Bool.and_eq_true, Bool.not_eq_eq_eq_not,
    Bool.not_true] at h
  simpa using h.2

/-- The generated thumbnail name never matches the full-size selection
predicate: thumbnails are never re-thumbnailed. -/
theorem thumb_not_fullslide {f : FileName} (h : isFullSlide f = true) :
    isFullSlide (thumb_filename f) = false := by
  have hc := thumb_filename_contains (jpg_suffix_of_fullslide h)
  simp [isFullSlide, hc]

/-- A thumbnail's name differs from its source slide's name. -/
theorem thumb_filename_ne {f : FileName} (h : isFullSlide f = true) :
    thumb_filename f ≠ f := by
  intro heq
  have h1 := thumb_filename_contains (jpg_suffix_of_fullslide h)
  rw [heq, notcontains_of_fullslide h] at h1
  exact Bool.false_ne_true h1

/-! ### Facts about the directory model -/

/-- Insertion keeps exactly the old elements plus the new one. -/
theorem mem_insertName {x y : FileName} {l : List FileName} :
    x ∈ insertName y l ↔ x = y ∨ x ∈ l := by
  induction l with
  | nil => simp [insertName]
  | cons z zs ih =>
      rw [insertName]
      by_cases h : nameLe y z = true
      · rw [if_pos h]
        simp
      · rw [if_neg h]
        simp only [List.mem_cons, ih]
        tauto

/-- Sorting keeps exactly the original elements. -/
theorem mem_sortNames {x : FileName} {l : List FileName} :
    x ∈ sortNames l ↔ x ∈ l := by
  induction l with
  | nil => simp [sortNames]
  | cons z zs ih =>
      rw [sortNames, List.foldr_cons]
      rw [show List.foldr insertName [] zs = sortNames zs from rfl]
      rw [mem_insertName, ih, List.mem_cons]

/-- Overwriting key `n` does not change lookups of other keys. -/
theorem find?_map_overwrite (d : FS) (n m : FileName) (v : ImgFile)
    (hmn : m ≠ n) :
    (d.map (fun p => if p.1 = n then (n, v) else p)).find?
        (fun p => p.1 = m) =
      d.find? (fun p => p.1 = m) := by
  induction d with
  | nil => rfl
  | cons p d' ih =>
      by_cases h1 : p.1 = n
      · have hpm : p.1 ≠ m := by
          rw [h1]
          exact Ne.symm hmn
        rw [List.map_cons, if_pos h1,
          List.find?_cons_of_neg _ (by simp [Ne.symm hmn]),
          List.find?_cons_of_neg _ (by simp [hpm]), ih]
      · rw [List.map_cons, if_neg h1]
        by_cases h2 : p.1 = m
        · rw [List.find?_cons_of_pos _ (by simp [h2]),
            List.find?_cons_of_pos _ (by simp [h2])]
        · rw [List.find?_cons_of_neg _ (by simp [h2]),
            List.find?_cons_of_neg _ (by simp [h2]), ih]

/-- Appending an entry for key `n` does not change lookups of other keys. -/
theorem find?_append_single_ne (d : FS) (n m : FileName) (v : ImgFile)
    (hmn : m ≠ n) :
    (d ++ [(n, v)]).find? (fun p => p.1 = m) =
      d.find? (fun p => p.1 = m) := by
  induction d with
  | nil =>
      simp only [List.nil_append]
      rw [List.find?_cons_of_neg _ (by simp [Ne.symm hmn])]
  | cons p d' ih =>
      by_cases h2 : p.1 = m
      · rw [List.cons_append, List.find?_cons_of_pos _ (by simp [h2]),
          List.find?_cons_of_pos _ (by simp [h2])]
      · rw [List.cons_append, List.find?_cons_of_neg _ (by simp [h2]),
          List.find?_cons_of_neg _ (by simp [h2]), ih]

/-- Writing one file leaves every other file's content unchanged. -/
theorem fsRead_fsWrite_ne (d : FS) (n m : FileName) (v : ImgFile)
    (hmn : m ≠ n) : fsRead (fsWrite d n v) m = fsRead d m := by
  rw [fsRead, fsWrite]
  by_cases h : n ∈ listdir d
  · rw [if_pos h, find?_map_overwrite d n m v hmn]
    rfl
  · rw [if_neg h, find?_append_single_ne d n m v hmn]
    rfl

/-- `listdir` on a cons. -/
theorem listdir_cons (p : FileName × ImgFile) (d : FS) :
    listdir (p :: d) = p.1 :: listdir d := rfl

/-- Overwriting an existing key makes its lookup yield the new entry. -/
theorem find?_map_overwrite_same (d : FS) (n : FileName) (v : ImgFile)
    (h : n ∈ listdir d) :
    (d.map (fun p => if p.1 = n then (n, v) else p)).find?
        (fun p => p.1 = n) = some (n, v) := by
  induction d with
  | nil => exact absurd h (List.not_mem_nil n)
  | cons p d' ih =>
      by_cases h1 : p.1 = n
      · rw [List.map_cons, if_pos h1, List.find?_cons_of_pos _ (by simp)]
      · rw [List.map_cons, if_neg h1,
          List.find?_cons_of_neg _ (by simp [h1])]
        apply ih
        rw [listdir_cons, List.mem_cons] at h
        rcases h with h2 | h2
        · exact absurd h2.symm h1
        · exact h2

/-- Appending an entry for a fresh key makes its lookup yield that entry. -/
theorem find?_append_single_same (d : FS) (n : FileName) (v : ImgFile)
    (h : n ∉ listdir d) :
    (d ++ [(n, v)]).find? (fun p => p.1 = n) = some (n, v) := by
  induction d with
  | nil =>
      simp only [List.nil_append]
      rw [List.find?_cons_of_pos _ (by simp)]
  | cons p d' ih =>
      have hp : p.1 ≠ n := by
        intro he
        exact h (by rw [listdir_cons, List.mem_cons]; exact Or.inl he.symm)
      rw [List.cons_append, List.find?_cons_of_neg _ (by simp [hp])]
      refine ih ?_
      intro hm
      exact h (by rw [listdir_cons, List.mem_cons]; exact Or.inr hm)

/-- After a write, reading the written name yields the written content. -/
theorem fsRead_fsWrite_same (d : FS) (n : FileName) (v : ImgFile) :
    fsRead (fsWrite d n v) n = some v := by
  rw [fsRead, fsWrite]
  by_cases h : n ∈ listdir d
  · rw [if_pos h, find?_map_overwrite_same d n v h]
    rfl
  · rw [if_neg h, find?_append_single_same d n v h]
    rfl

/-- Writing to an existing name leaves the name listing unchanged. -/
theorem listdir_fsWrite_mem {d : FS} {n : FileName} (v : ImgFile)
    (h : n ∈ listdir d) : listdir (fsWrite d n v) = listdir d := by
  rw [fsWrite, if_pos h]
  rw [listdir, List.map_map]
  apply List.map_congr_left
  intro p hp
  by_cases hpn : p.1 = n
  · simp [hpn]
  · simp [hpn]

/-- Writing to a fresh name appends it to the listing. -/
theorem listdir_fsWrite_notMem {d : FS} {n : FileName} (v : ImgFile)
    (h : n ∉ listdir d) : listdir (fsWrite d n v) = listdir d ++ [n] := by
  rw [fsWrite, if_neg h, listdir, List.map_append]
  rfl

/-- Writing a non-full-size name does not change the full-size selection's
underlying filtered listing. -/
theorem filter_listdir_fsWrite (d : FS) (n : FileName) (v : ImgFile)
    (hn : isFullSlide n = false) :
    (listdir (fsWrite d n v)).filter isFullSlide =
      (listdir d).filter isFullSlide := by
  by_cases h : n ∈ listdir d
  · rw [listdir_fsWrite_mem v h]
  · rw [listdir_fsWrite_notMem v h, List.filter_append]
    simp [hn]

/-- Writes preserve distinctness of the name listing. -/
theorem nodup_listdir_fsWrite (d : FS) (n : FileName) (v : ImgFile)
    (hnd : (listdir d).Nodup) : (listdir (fsWrite d n v)).Nodup := by
  by_cases h : n ∈ listdir d
  · rw [listdir_fsWrite_mem v h]
    exact hnd
  · rw [listdir_fsWrite_notMem v h]
    simp [List.nodup_append, hnd, h]

/-- Writes never remove a listed name. -/
theorem mem_listdir_fsWrite_of_mem {d : FS} {m : FileName}
    (n : FileName) (v : ImgFile) (h : m ∈ listdir d) :
    m ∈ listdir (fsWrite d n v) := by
  by_cases hn : n ∈ listdir d
  · rw [listdir_fsWrite_mem v hn]
    exact h
  · rw [listdir_fsWrite_notMem v hn]
    exact List.mem_append_left _ h

/-- The written name is always listed afterwards. -/
theorem self_mem_listdir_fsWrite (d : FS) (n : FileName) (v : ImgFile) :
    n ∈ listdir (fsWrite d n v) := by
  by_cases hn : n ∈ listdir d
  · rw [listdir_fsWrite_mem v hn]
    exact hn
  · rw [listdir_fsWrite_notMem v hn]
    exact List.mem_append_right _ (List.mem_singleton.2 rfl)

/-- Reading a name that is not listed yields nothing. -/
theorem fsRead_eq_none_of_notMem {d : FS} {n : FileName}
    (h : n ∉ listdir d) : fsRead d n = none := by
  induction d with
  | nil => rfl
  | cons p d' ih =>
      have hp : p.1 ≠ n := by
        intro he
        exact h (by rw [listdir_cons, List.mem_cons]; exact Or.inl he.symm)
      rw [fsRead, List.find?_cons_of_neg _ (by simp [hp])]
      exact ih (fun hm => h (by rw [listdir_cons, List.mem_cons]; exact Or.inr hm))

/-- Reading a listed name hits the head entry when it matches. -/
theorem fsRead_cons_self (p : FileName × ImgFile) (d : FS) :
    fsRead (p :: d) p.1 = some p.2 := by
  rw [fsRead, List.find?_cons_of_pos _ (by simp)]
  rfl

/-- Reading another name skips the head entry. -/
theorem fsRead_cons_ne (p : FileName × ImgFile) (d : FS) {n : FileName}
    (h : p.1 ≠ n) : fsRead (p :: d) n = fsRead d n := by
  rw [fsRead, List.find?_cons_of_neg _ (by simp [h])]
  rfl

/-- Two directories with duplicate-free identical listings and identical
reads are equal entry for entry. -/
theorem fs_ext : ∀ (f g : FS), listdir f = listdir g →
    (listdir f).Nodup → (∀ n, fsRead f n = fsRead g n) → f = g := by
  intro f
  induction f with
  | nil =>
      intro g hl _ _
      cases g with
      | nil => rfl
      | cons q g' => exact absurd hl.symm (by simp [listdir_cons, listdir])
  | cons p f' ih =>
      intro g hl hnd hr
      cases g with
      | nil => exact absurd hl (by simp [listdir_cons, listdir])
      | cons q g' =>
          rw [listdir_cons, listdir_cons] at hl
          have hk : p.1 = q.1 := (List.cons.injEq _ _ _ _ ▸ hl).1
          have htl : listdir f' = listdir g' := (List.cons.injEq _ _ _ _ ▸ hl).2
          have hv : p.2 = q.2 := by
            have h1 := hr p.1
            rw [fsRead_cons_self] at h1
            have h2 : fsRead (q :: g') p.1 = some q.2 := by
              rw [show p.1 = q.1 from hk]
              exact fsRead_cons_self q g'
            rw [h2] at h1
            exact Option.some.injEq _ _ ▸ h1
          have hpq : p = q := Prod.ext hk hv
          rw [listdir_cons] at hnd
          have hnotmem : p.1 ∉ listdir f' := (List.nodup_cons.1 hnd).1
          have hnd' : (listdir f').Nodup := (List.nodup_cons.1 hnd).2
          have hr' : ∀ n, fsRead f' n = fsRead g' n := by
            intro n
            by_cases hn : p.1 = n
            · subst hn
              have hgnot : p.1 ∉ listdir g' := htl ▸ hnotmem
              rw [fsRead_eq_none_of_notMem hnotmem,
                fsRead_eq_none_of_notMem hgnot]
            · have h1 := hr n
              rw [fsRead_cons_ne p f' hn, fsRead_cons_ne q g' (hk ▸ hn)] at h1
              exact h1
          rw [hpq, ih g' htl hnd' hr']

/-- Folding a list of writes over the directory, in order. -/
def applyWrites (d : FS) (ws : List (FileName × ImgFile)) : FS :=
  ws.foldl (fun acc w => fsWrite acc w.1 w.2) d

/-- The write list that one `generate_thumbnails` run performs: for each
selected slide (in sorted order) that reads back, the thumbnail name and
content. -/
def thumbWrites (tw : Nat) (d : FS) : List (FileName × ImgFile) :=
  (slideSelection d).filterMap
    (fun f => (fsRead d f).map (fun img => (thumb_filename f, thumbImage tw img)))

/-- `applyWrites` unfolding on a cons. -/
theorem applyWrites_cons (d : FS) (w : FileName × ImgFile)
    (ws : List (FileName × ImgFile)) :
    applyWrites d (w :: ws) = applyWrites (fsWrite d w.1 w.2) ws := rfl

/-- A write list whose keys all fail the selection predicate leaves the
filtered listing unchanged. -/
theorem filter_listdir_applyWrites (ws : List (FileName × ImgFile)) :
    ∀ d : FS, (∀ w ∈ ws, isFullSlide w.1 = false) →
    (listdir (applyWrites d ws)).filter isFullSlide =
      (listdir d).filter isFullSlide := by
  induction ws with
  | nil => intro d _; rfl
  | cons w ws' ih =>
      intro d h
      rw [applyWrites_cons,
        ih (fsWrite d w.1 w.2) (fun w' hw' => h w' (List.mem_cons_of_mem _ hw'))]
      exact filter_listdir_fsWrite d w.1 w.2 (h w (List.mem_cons_self _ _))

/-- A name that is not among the written keys reads the same afterwards. -/
theorem fsRead_applyWrites_notMem (ws : List (FileName × ImgFile)) :
    ∀ (d : FS) (m : FileName), m ∉ ws.map Prod.fst →
    fsRead (applyWrites d ws) m = fsRead d m := by
  induction ws with
  | nil => intro d m _; rfl
  | cons w ws' ih =>
      intro d m h
      rw [List.map_cons] at h
      have hne : m ≠ w.1 := fun he => h (List.mem_cons_self _ _ |> (he ▸ ·))
      rw [applyWrites_cons,
        ih (fsWrite d w.1 w.2) m (fun hm => h (List.mem_cons_of_mem _ hm))]
      exact fsRead_fsWrite_ne d w.1 m w.2 hne

/-- Writes never shrink the listing. -/
theorem mem_listdir_applyWrites_of_mem (ws : List (FileName × ImgFile)) :
    ∀ (d : FS) (m : FileName), m ∈ listdir d →
    m ∈ listdir (applyWrites d ws) := by
  induction ws with
  | nil => intro d m h; exact h
  | cons w ws' ih =>
      intro d m h
      rw [applyWrites_cons]
      exact ih _ m (mem_listdir_fsWrite_of_mem w.1 w.2 h)

/-- Every written key is listed after the writes. -/
theorem keys_mem_applyWrites (ws : List (FileName × ImgFile)) :
    ∀ (d : FS), ∀ w ∈ ws, w.1 ∈ listdir (applyWrites d ws) := by
  induction ws with
  | nil => intro d w hw; exact absurd hw (List.not_mem_nil w)
  | cons w0 ws' ih =>
      intro d w hw
      rw [applyWrites_cons]
      rcases List.mem_cons.1 hw with he | hm
      · subst he
        exact mem_listdir_applyWrites_of_mem ws' _ _
          (self_mem_listdir_fsWrite d w.1 w.2)
      · exact ih _ w hm

/-- Writes whose keys are all already listed leave the listing unchanged. -/
theorem listdir_applyWrites_of_keys_mem (ws : List (FileName × ImgFile)) :
    ∀ d : FS, (∀ w ∈ ws, w.1 ∈ listdir d) →
    listdir (applyWrites d ws) = listdir d := by
  induction ws with
  | nil => intro d _; rfl
  | cons w ws' ih =>
      intro d h
      have hld : listdir (fsWrite d w.1 w.2) = listdir d :=
        listdir_fsWrite_mem w.2 (h w (List.mem_cons_self _ _))
      rw [applyWrites_cons, ih (fsWrite d w.1 w.2) (fun w' hw' => by
        rw [hld]
        exact h w' (List.mem_cons_of_mem _ hw')), hld]

/-- Writes preserve distinctness of the listing. -/
theorem nodup_listdir_applyWrites (ws : List (FileName × ImgFile)) :
    ∀ d : FS, (listdir d).Nodup → (listdir (applyWrites d ws)).Nodup := by
  induction ws with
  | nil => intro d h; exact h
  | cons w ws' ih =>
      intro d h
      rw [applyWrites_cons]
      exact ih _ (nodup_listdir_fsWrite d w.1 w.2 h)

/-- After replaying a write list, a written key's content depends only on
the writes, not on the starting directory. -/
theorem fsRead_applyWrites_mem (ws : List (FileName × ImgFile)) :
    ∀ (X Y : FS) (m : FileName), m ∈ ws.map Prod.fst →
    fsRead (applyWrites X ws) m = fsRead (applyWrites Y ws) m := by
  induction ws with
  | nil => intro X Y m h; exact absurd h (List.not_mem_nil m)
  | cons w ws' ih =>
      intro X Y m h
      rw [applyWrites_cons, applyWrites_cons]
      by_cases hm : m ∈ ws'.map Prod.fst
      · exact ih _ _ m hm
      · have he : m = w.1 := by
          rw [List.map_cons, List.mem_cons] at h
          rcases h with h1 | h1
          · exact h1
          · exact absurd h1 hm
        rw [fsRead_applyWrites_notMem ws' _ m hm,
          fsRead_applyWrites_notMem ws' _ m hm, he,
          fsRead_fsWrite_same, fsRead_fsWrite_same]

/-- Membership in the slide selection means the name passes the full-size
predicate. -/
theorem fullslide_of_mem_selection {d : FS} {f : FileName}
    (hf : f ∈ slideSelection d) : isFullSlide f = true := by
  rw [slideSelection] at hf
  exact (List.mem_filter.1 (mem_sortNames.1 hf)).2

/-- The thumbnail loop is the replay of its computed write list, provided
the accumulator still reads all full-size slides as the original directory
does. -/
theorem foldl_gen_aux (tw : Nat) (d : FS) :
    ∀ S : List FileName, (∀ f ∈ S, isFullSlide f = true) →
    ∀ acc : FS, (∀ g, isFullSlide g = true → fsRead acc g = fsRead d g) →
    S.foldl (fun acc f =>
      match fsRead acc f with
      | some img => fsWrite acc (thumb_filename f) (thumbImage tw img)
      | none => acc) acc =
    applyWrites acc (S.filterMap (fun f => (fsRead d f).map
      (fun img => (thumb_filename f, thumbImage tw img)))) := by
  intro S
  induction S with
  | nil => intro _ acc _; rfl
  | cons f S' ih =>
      intro hS acc hagree
      have hf : isFullSlide f = true := hS f (List.mem_cons_self _ _)
      have hrf : fsRead acc f = fsRead d f := hagree f hf
      rw [List.foldl_cons]
      cases hd : fsRead d f with
      | none =>
          have hstep : (match fsRead acc f with
              | some img => fsWrite acc (thumb_filename f) (thumbImage tw img)
              | none => acc) = acc := by
            rw [hrf, hd]
          have hmap : (fsRead d f).map
              (fun img => (thumb_filename f, thumbImage tw img)) = none := by
            rw [hd]
            rfl
          rw [hstep]
          simp only [List.filterMap_cons, hmap]
          exact ih (fun g hg => hS g (List.mem_cons_of_mem _ hg)) acc hagree
      | some img =>
          have hstep : (match fsRead acc f with
              | some i => fsWrite acc (thumb_filename f) (thumbImage tw i)
              | none => acc) =
              fsWrite acc (thumb_filename f) (thumbImage tw img) := by
            rw [hrf, hd]
          have hmap : (fsRead d f).map
              (fun i => (thumb_filename f, thumbImage tw i)) =
              some (thumb_filename f, thumbImage tw img) := by
            rw [hd]
            rfl
          rw [hstep]
          simp only [List.filterMap_cons, hmap]
          rw [applyWrites_cons]
          refine ih (fun g hg => hS g (List.mem_cons_of_mem _ hg)) _ ?_
          intro g hg
          have hgne : g ≠ thumb_filename f := by
            intro he
            have := thumb_not_fullslide hf
            rw [← he, hg] at this
            exact Bool.noConfusion this
          rw [fsRead_fsWrite_ne acc (thumb_filename f) g (thumbImage tw img) hgne]
          exact hagree g hg

/-- `generate_thumbnails` is the replay of `thumbWrites`. -/
theorem gen_eq (tw : Nat) (d : FS) :
    generate_thumbnails tw d = applyWrites d (thumbWrites tw d) := by
  rw [generate_thumbnails, thumbWrites]
  exact foldl_gen_aux tw d (slideSelection d)
    (fun f hf => fullslide_of_mem_selection hf) d (fun g _ => rfl)

/-- Every name the thumbnail loop writes fails the full-size predicate. -/
theorem thumbWrites_keys_not_fullslide (tw : Nat) (d : FS) :
    ∀ w ∈ thumbWrites tw d, isFullSlide w.1 = false := by
  intro w hw
  rw [thumbWrites] at hw
  rcases List.mem_filterMap.1 hw with ⟨f, hf, hmap⟩
  rcases Option.map_eq_some'.1 hmap with ⟨img, hread, hw'⟩
  rw [← hw']
  exact thumb_not_fullslide (fullslide_of_mem_selection hf)

/-- Non-full-size writes leave the slide selection unchanged. -/
theorem slideSelection_applyWrites (ws : List (FileName × ImgFile)) (d : FS)
    (hks : ∀ w ∈ ws, isFullSlide w.1 = false) :
    slideSelection (applyWrites d ws) = slideSelection d := by
  rw [slideSelection, slideSelection, filter_listdir_applyWrites ws d hks]

/-- Non-full-size writes leave every full-size read unchanged. -/
theorem fsRead_applyWrites_fullslide (ws : List (FileName × ImgFile))
    (d : FS) (hks : ∀ w ∈ ws, isFullSlide w.1 = false) (f : FileName)
    (hf : isFullSlide f = true) :
    fsRead (applyWrites d ws) f = fsRead d f := by
  refine fsRead_applyWrites_notMem ws d f ?_
  intro hmem
  rcases List.mem_map.1 hmem with ⟨w, hw, he⟩
  have hfalse := hks w hw
  rw [he, hf] at hfalse
  exact Bool.noConfusion hfalse

/-- `filterMap` only depends on the function's values on the list. -/
theorem filterMap_congr_mem {α β : Type} (l : List α) (f g : α → Option β)
    (h : ∀ a ∈ l, f a = g a) : l.filterMap f = l.filterMap g := by
  induction l with
  | nil => rfl
  | cons a l' ih =>
      rw [List.filterMap_cons, List.filterMap_cons, h a (List.mem_cons_self _ _),
        ih (fun b hb => h b (List.mem_cons_of_mem _ hb))]

/-- A second run computes exactly the same write list. -/
theorem thumbWrites_gen (tw : Nat) (d : FS) :
    thumbWrites tw (generate_thumbnails tw d) = thumbWrites tw d := by
  have hkeys := thumbWrites_keys_not_fullslide tw d
  have hsel : slideSelection (generate_thumbnails tw d) = slideSelection d := by
    rw [gen_eq]
    exact slideSelection_applyWrites _ _ hkeys
  rw [thumbWrites, thumbWrites, hsel]
  apply filterMap_congr_mem
  intro f hf
  rw [gen_eq,
    fsRead_applyWrites_fullslide _ _ hkeys f (fullslide_of_mem_selection hf)]

/-- Claim C8: the thumbnail generator is idempotent.  A second run over the
unchanged directory selects exactly the same sorted set of input files
(exactly those matching `slide_*.jpg` without `_thumb`), rewrites each prior
thumbnail with the identical content — leaving the directory unchanged — and
no selected input is ever itself a thumbnail. -/
theorem C8_thumbnail_generator_idempotent (tw : Nat) (d : FS)
    (hnd : (listdir d).Nodup) :
    slideSelection (generate_thumbnails tw d) = slideSelection d ∧
    generate_thumbnails tw (generate_thumbnails tw d) =
      generate_thumbnails tw d ∧
    (∀ f ∈ slideSelection d, isFullSlide f = true ∧
      containsSub thumbMark f = false ∧
      isFullSlide (thumb_filename f) = false) := by
  have hkeys := thumbWrites_keys_not_fullslide tw d
  have h1 : generate_thumbnails tw d = applyWrites d (thumbWrites tw d) :=
    gen_eq tw d
  have hsel : slideSelection (generate_thumbnails tw d) = slideSelection d := by
    rw [h1]
    exact slideSelection_applyWrites _ _ hkeys
  refine ⟨hsel, ?_, ?_⟩
  · have h2 : generate_thumbnails tw (generate_thumbnails tw d) =
        applyWrites (generate_thumbnails tw d) (thumbWrites tw d) := by
      rw [gen_eq tw (generate_thumbnails tw d), thumbWrites_gen tw d]
    rw [h2]
    rw [h1]
    have hkeysB : ∀ w ∈ thumbWrites tw d,
        w.1 ∈ listdir (applyWrites d (thumbWrites tw d)) :=
      keys_mem_applyWrites (thumbWrites tw d) d
    have hlist : listdir (applyWrites (applyWrites d (thumbWrites tw d))
        (thumbWrites tw d)) = listdir (applyWrites d (thumbWrites tw d)) :=
      listdir_applyWrites_of_keys_mem (thumbWrites tw d) _ hkeysB
    have hndB : (listdir (applyWrites d (thumbWrites tw d))).Nodup :=
      nodup_listdir_applyWrites (thumbWrites tw d) d hnd
    refine fs_ext _ _ hlist (by rw [hlist]; exact hndB) ?_
    intro m
    by_cases hm : m ∈ (thumbWrites tw d).map Prod.fst
    · exact fsRead_applyWrites_mem (thumbWrites tw d) _ d m hm
    · exact fsRead_applyWrites_notMem (thumbWrites tw d) _ m hm
  · intro f hf
    have hf2 : isFullSlide f = true := fullslide_of_mem_selection hf
    exact ⟨hf2, notcontains_of_fullslide hf2, thumb_not_fullslide hf2⟩

/-- A one-slide sample directory, `slide_001.jpg` at 1920×1080. -/
def sampleDir : FS :=
  [(['s', 'l', 'i', 'd', 'e', '_', '0', '0', '1', '.', 'j', 'p', 'g'],
    { width := 1920, height := 1080, payload := 7 })]

/-- Witness for C8 on the sample directory. -/
theorem C8_thumbnail_generator_idempotent_witness :
    slideSelection (generate_thumbnails 300 sampleDir) =
      slideSelection sampleDir ∧
    generate_thumbnails 300 (generate_thumbnails 300 sampleDir) =
      generate_thumbnails 300 sampleDir ∧
    (isFullSlide ['s', 'l', 'i', 'd', 'e', '_', '0', '0', '1', '.', 'j', 'p', 'g'] = true ∧
      containsSub thumbMark
        ['s', 'l', 'i', 'd', 'e', '_', '0', '0', '1', '.', 'j', 'p', 'g'] = false ∧
      isFullSlide (thumb_filename
        ['s', 'l', 'i', 'd', 'e', '_', '0', '0', '1', '.', 'j', 'p', 'g']) = false) := by
  have h := C8_thumbnail_generator_idempotent 300 sampleDir (by decide)
  exact ⟨h.1, h.2.1, h.2.2
    ['s', 'l', 'i', 'd', 'e', '_', '0', '0', '1', '.', 'j', 'p', 'g'] (by decide)⟩

end SyncShow

